import Mathlib

/-!
Verification of the epoch-filtering / kinematics pipeline of
`vf_analysis/preprocessing/analyze_dlm.py`.

The frame table is embedded as a `List` of row structures.  Numeric cell
values that can be NaN in the source (numpy/pandas float64 columns) are
modelled as `Option ℚ`, with `none` playing the role of NaN: arithmetic
propagates `none`, `np.nanmax` ignores `none` entries, and a comparison
whose left side is `none` is false (Python `nan <= c` is `False`).
Columns that are always defined in the pipeline (raw coordinates, time,
the centered coordinates produced by subtraction of defined values) are
plain `ℚ`.
-/

set_option maxHeartbeats 1000000
set_option maxRecDepth 100000

namespace VF

/-- A possibly-NaN numeric cell value (`none` = NaN). -/
abbrev V := Option ℚ

/-- NaN-propagating addition (numpy `+`). -/
def vadd : V → V → V
  | some a, some b => some (a + b)
  | _, _ => none

/-- NaN-propagating subtraction (numpy `-`). -/
def vsub : V → V → V
  | some a, some b => some (a - b)
  | _, _ => none

/-- NaN-propagating division (numpy `/`).  The denominators appearing in the
properties proved below are nonzero constants, so numpy's `x / 0 = inf`
behavior is never exercised. -/
def vdiv : V → V → V
  | some a, some b => some (a / b)
  | _, _ => none

/-- NaN-propagating absolute value (`np.abs`). -/
def vabs : V → V := Option.map (|·|)

/-- Sum of an array with NaN propagation (`np.sum` over a float array:
the result is NaN as soon as one entry is NaN). -/
def vsum (l : List V) : V := l.foldr vadd (some 0)

/-- `np.nanmax`: maximum of the non-NaN entries; NaN when all entries are
NaN (or the list is empty). -/
def nanmax (l : List V) : V :=
  l.foldr (fun x acc =>
    match x, acc with
    | some a, some b => some (max a b)
    | some a, none => some a
    | none, acc => acc) none

/-- Python comparison `x <= c` where `x` may be NaN: NaN compares false. -/
def vleB (x : V) (c : ℚ) : Bool :=
  match x with
  | some a => decide (a ≤ c)
  | none => false

/-- Python comparison `x < c` where `x` may be NaN: NaN compares false. -/
def vltB (x : V) (c : ℚ) : Bool :=
  match x with
  | some a => decide (a < c)
  | none => false

/-- pandas `Series.mean` of an always-defined rational column. -/
def meanQ (l : List ℚ) : ℚ := l.sum / l.length

/-! ### Constants of the source module -/

def FRAM_RATE : ℚ := 40
def MIN_DUR : ℚ := 2.5 * FRAM_RATE
def MAX_FISH : ℚ := 1
def MAX_INST_DISPL : ℚ := 35
def MAX_ANG_VEL : ℚ := 100
def MAX_ANG_ACCEL : ℚ := 32000
def MAX_DELTA_T : ℚ := 0.05
def MAX_DIST_TRAVEL : ℚ := 26
def EPOCH_BUF : ℕ := 2
def SCALE : ℚ := 60
def SM_WINDOW_FOR_FILTER : ℕ := 9
def SM_WINDOW_FOR_ANGVEL : ℕ := 3

/-! ### Row types -/

/-- A row of the raw input table (the columns `raw_filter` and the
centered-coordinate computation read). -/
structure RawRow where
  epochNum : ℚ
  time : ℚ
  absx : ℚ
  absy : ℚ
  absHeadx : ℚ
  absHeady : ℚ
  ang : ℚ
  fishNum : V
  fishLen : ℚ
deriving DecidableEq

/-- A row of the analyzed table `ana` / `ana_f` (after `reset_index`, so
`label` is the pandas integer index used by `.loc` slicing). -/
structure AnaRow where
  label : ℕ
  epochNum : ℚ
  deltaT : V
  x : ℚ
  y : ℚ
  headx : ℚ
  heady : ℚ
  centeredAng : ℚ
  displ : V
  dist : V
  angVel : V
  angVelSmoothed : V
  angAccel : V
deriving DecidableEq

/-- A row of the centered-coordinate block computed in `analyze_dlm`. -/
structure CRow where
  epochNum : ℚ
  x : ℚ
  y : ℚ
  headx : ℚ
  heady : ℚ
  centeredAng : ℚ
deriving DecidableEq

/-! ### Grouping by epoch (`df.groupby('epochNum', sort=False)`) -/

variable {α : Type} {β : Type}

/-- The rows of `df` belonging to the group keyed by `e` (original order). -/
def groupOf (k : α → ℚ) (df : List α) (e : ℚ) : List α :=
  df.filter (fun r => decide (k r = e))

/-- Group keys in first-encountered order (pandas `groupby(sort=False)`). -/
def firstOccKeys : List ℚ → List ℚ
  | [] => []
  | e :: rest => e :: firstOccKeys (rest.filter (fun x => decide (¬ x = e)))
termination_by l => l.length
decreasing_by
  simp only [List.length_cons]
  exact Nat.lt_succ_of_le (List.length_filter_le _ _)

/-- `grp_by_epoch`: the ordered partition of the table by `epochNum`. -/
def grp_by_epoch (k : α → ℚ) (df : List α) : List (ℚ × List α) :=
  (firstOccKeys (df.map k)).map (fun e => (e, groupOf k df e))

/-- `groupby(...).filter(pred)`: keep, in original order, the rows whose
whole group satisfies the predicate. -/
def grp_filter (k : α → ℚ) (p : List α → Bool) (df : List α) : List α :=
  df.filter (fun r => p (groupOf k df (k r)))

/-- `groupby(...).filter(pred)` for a predicate that can raise (modelled by
`Option.none`): if the predicate raises on any group the whole call raises
(`none`); otherwise behave like `grp_filter`. -/
def grp_filterE (k : α → ℚ) (p : List α → Option Bool) (df : List α) :
    Option (List α) :=
  if df.all (fun r => (p (groupOf k df (k r))).isSome)
  then some (df.filter (fun r => (p (groupOf k df (k r))).getD false))
  else none

/-- Number of rows of `l` in the group keyed by `e`. -/
def cntKey (k : α → ℚ) (e : ℚ) (l : List α) : ℕ :=
  (groupOf k l e).length

/-- Groupwise first difference of a (key, value) column pair
(`groupby(...)[col].diff()`): each output is the row's value minus the
value of the previous row of the same group, NaN when there is no previous
same-group row or either value is NaN. -/
def gdiffPairsAux : List (ℚ × V) → List (ℚ × V) → List V
  | _, [] => []
  | seen, p :: rest =>
    (match (seen.filter (fun q => decide (q.1 = p.1))).getLast? with
     | some q => vsub p.2 q.2
     | none => none) :: gdiffPairsAux (seen ++ [p]) rest

def gdiffPairs (ps : List (ℚ × V)) : List V := gdiffPairsAux [] ps

/-! ### The smoothing function `smooth_series_ML` -/

/-- `np.cumsum`. -/
def cumsum (l : List V) : List V :=
  (List.range l.length).map (fun i => vsum (l.take (i + 1)))

/-- Python slice `[::2]` (indices 0, 2, 4, ...). -/
def everyOther : List β → List β
  | [] => []
  | [x] => [x]
  | x :: _ :: rest => x :: everyOther rest

/-- `np.arange(lo, hi, 2)`. -/
def arange2 (lo hi : ℕ) : List ℕ :=
  (List.range ((hi - lo + 1) / 2)).map (fun j => lo + 2 * j)

/-- `np.arange(1, WSZ-1, 2)` as a value list (the divisors of the shrinking
edge windows). -/
def rList (W : ℕ) : List V := (arange2 1 (W - 1)).map (fun (m : ℕ) => some ((m : ℚ)))

/-- `np.convolve(a, np.ones(W), 'valid')`: sliding-window sums when the
data is at least as long as the kernel; numpy swaps the arguments when the
kernel is longer, so every full-overlap position is the sum of all of `a`. -/
def convolveValidOnes (a : List V) (W : ℕ) : List V :=
  if W ≤ a.length then
    (List.range (a.length - W + 1)).map (fun j => vsum ((a.drop j).take W))
  else
    List.replicate (W - a.length + 1) (vsum a)

/-- `smooth_series_ML` (the arithmetic of the happy path, where the edge
broadcasts are shape-compatible — in particular whenever
`W ≤ a.length`): MATLAB-style moving average with shrinking windows at
both ends. -/
def smooth_series_ML (a : List V) (W : ℕ) : List V :=
  let out0 := (convolveValidOnes a W).map (fun s => vdiv s (some (W : ℚ)))
  let start := List.zipWith vdiv (everyOther (cumsum (a.take (W - 1)))) (rList W)
  let stop :=
    (List.zipWith vdiv (everyOther (cumsum (a.reverse.take (W - 1)))) (rList W)).reverse
  start ++ out0 ++ stop

/-- numpy broadcasting of elementwise division of two 1-D arrays: defined
when the shapes match or one of them has length 1, a `ValueError` (`none`)
otherwise. -/
def broadcastDiv (x y : List V) : Option (List V) :=
  if x.length = y.length then some (List.zipWith vdiv x y)
  else if x.length = 1 then some (y.map (fun b => vdiv (x.headD none) b))
  else if y.length = 1 then some (x.map (fun v => vdiv v (y.headD none)))
  else none

/-- `smooth_series_ML` with the error behavior of the source made explicit:
`np.convolve` raises on an empty input, the edge divisions raise on a
broadcast shape mismatch, and the final `pd.Series(data=res, index=a.index)`
raises when the assembled data does not have the input's length.
`none` models the raised exception. -/
def smooth_series_ML_run (a : List V) (W : ℕ) : Option (List V) :=
  if a.length = 0 then none
  else
    match broadcastDiv (everyOther (cumsum (a.take (W - 1)))) (rList W),
          broadcastDiv (everyOther (cumsum (a.reverse.take (W - 1)))) (rList W) with
    | some start, some stop0 =>
      let res := start ++ (convolveValidOnes a W).map (fun s => vdiv s (some (W : ℚ)))
                   ++ stop0.reverse
      if res.length = a.length then some res else none
    | _, _ => none

/-! ### The filter stages -/

/-- Step 1 of `raw_filter`: drop the first and last `EPOCH_BUF` rows of
each epoch, via the two `cumcount` masks
(`grouped.cumcount() >= EPOCH_BUF` counts the earlier same-epoch rows,
`grouped.cumcount(ascending=False) >= EPOCH_BUF` counts the later ones). -/
def del_bufAux (k : α → ℚ) : List α → List α → List α
  | _, [] => []
  | seen, r :: rest =>
    if EPOCH_BUF ≤ cntKey k (k r) seen ∧ EPOCH_BUF ≤ cntKey k (k r) rest
    then r :: del_bufAux k (seen ++ [r]) rest
    else del_bufAux k (seen ++ [r]) rest

def del_buf (k : α → ℚ) (df : List α) : List α := del_bufAux k [] df

/-- The predicate of step 2 of `raw_filter`:
`len(g) >= MIN_DUR and np.nanmax(g['fishNum'].values) < MAX_FISH`. -/
def rawFilterPred (g : List RawRow) : Bool :=
  decide (MIN_DUR ≤ (g.length : ℚ)) &&
    vltB (nanmax (g.map (·.fishNum))) MAX_FISH

/-- Step 2 of `raw_filter` (duration and fish-number filter). -/
def raw_filter_step2 (df : List RawRow) : List RawRow :=
  grp_filter RawRow.epochNum rawFilterPred df

/-- `raw_filter`: trim each epoch by `EPOCH_BUF`, then filter by duration
and fish number. -/
def raw_filter (df : List RawRow) : List RawRow :=
  raw_filter_step2 (del_buf RawRow.epochNum df)

/-- First predicate of `dur_y_x_filter`:
`np.nanmax(g['deltaT'].values) <= MAX_DELTA_T`. -/
def deltaTPred (g : List AnaRow) : Bool :=
  vleB (nanmax (g.map (·.deltaT))) MAX_DELTA_T

/-- A default row for the (never exercised on an empty group) `tail(1)`
lookup. -/
def dfltAna : AnaRow :=
  ⟨0, 0, none, 0, 0, 0, 0, 0, none, none, none, none, none⟩

/-- Second predicate of `dur_y_x_filter`:
`((g['headx'].mean() - g['x'].mean()) * g.tail(1)['x'].values)[0] >= 0`. -/
def dirPred (g : List AnaRow) : Bool :=
  decide (0 ≤ (meanQ (g.map (·.headx)) - meanQ (g.map (·.x))) * (g.getLastD dfltAna).x)

/-- `dur_y_x_filter`: gap filter then direction-consistency filter. -/
def dur_y_x_filter (df : List AnaRow) : List AnaRow :=
  grp_filter AnaRow.epochNum dirPred (grp_filter AnaRow.epochNum deltaTPred df)

/-- Median of three values (the 3-point rolling median's window statistic). -/
def med3 (a b c : ℚ) : ℚ := max (min a b) (min (max a b) c)

def vmed3 : V → V → V → V
  | some a, some b, some c => some (med3 a b c)
  | _, _, _ => none

/-- `Series.rolling(3, center=True).median()`: NaN at the two boundary
positions (incomplete window) and whenever the window holds a NaN. -/
def rollMed3 (l : List V) : List V :=
  (List.range l.length).map (fun i =>
    if 1 ≤ i ∧ i + 1 < l.length
    then vmed3 (l.getD (i - 1) none) (l.getD i none) (l.getD (i + 1) none)
    else none)

/-- First predicate of `displ_dist_vel_filter`: bounded instantaneous
displacement and bounded distance-travel anomaly. -/
def displPred (g : List AnaRow) : Bool :=
  vleB (nanmax ((g.map (·.displ)).map vabs)) MAX_INST_DISPL &&
    vltB (nanmax ((List.zipWith vsub (g.map (·.dist)) (rollMed3 (g.map (·.dist)))).map vabs))
      MAX_DIST_TRAVEL

/-- Second predicate of `displ_dist_vel_filter` (the angular-velocity
predicate).  `g.loc[1:, 'angVel']` is a label-based slice: it keeps the
rows whose integer index label is at least 1, which excludes a row only
in the group that contains the table's label-0 row.  The smoothing can
raise (sequence shorter than the window), hence the `Option Bool`. -/
def angVelFilterPred (g : List AnaRow) : Option Bool :=
  (smooth_series_ML_run ((g.filter (fun r => decide (1 ≤ r.label))).map (·.angVel))
      SM_WINDOW_FOR_FILTER).map
    (fun s => vleB (nanmax (s.map vabs)) MAX_ANG_VEL)

/-- The angular-velocity stage of `displ_dist_vel_filter` on its own. -/
def angvel_stage (df : List AnaRow) : Option (List AnaRow) :=
  grp_filterE AnaRow.epochNum angVelFilterPred df

/-- Third predicate of `displ_dist_vel_filter`:
`np.nanmax(np.abs(g['angAccel'].values)) <= MAX_ANG_ACCEL`. -/
def angAccelPred (g : List AnaRow) : Bool :=
  vleB (nanmax ((g.map (·.angAccel)).map vabs)) MAX_ANG_ACCEL

/-- `displ_dist_vel_filter`: displacement/distance filter, angular-velocity
filter, angular-acceleration filter.  `none` models an exception raised by
the smoothing call inside the second stage. -/
def displ_dist_vel_filter (df : List AnaRow) : Option (List AnaRow) :=
  (angvel_stage (grp_filter AnaRow.epochNum displPred df)).map
    (fun f2 => grp_filter AnaRow.epochNum angAccelPred f2)

/-! ### Centered coordinates and the angular-acceleration column -/

/-- The centered-coordinate block of `analyze_dlm`: subtract from each
frame's `absx, absy, absHeadx, absHeady, ang` the value of the first frame
of its epoch (`groupby(...).transform('first')`). -/
def centered_coordinates (df : List RawRow) : List CRow :=
  df.map (fun r =>
    let f := (groupOf RawRow.epochNum df r.epochNum).headD r
    ⟨r.epochNum, r.absx - f.absx, r.absy - f.absy, r.absHeadx - f.absHeadx,
      r.absHeady - f.absHeady, r.ang - f.ang⟩)

/-- The `angAccel` column assignment of `analyze_dlm`:
`np.divide(grp_by_epoch(ana_f)['angVel'].diff().values, ana_f['deltaT'].values)` —
the groupwise first difference of the raw `angVel` column divided by
`deltaT`. -/
def angAccel_col (df : List AnaRow) : List V :=
  List.zipWith vdiv (gdiffPairs (df.map (fun r => (r.epochNum, r.angVel))))
    (df.map (·.deltaT))

/-! ### Spec-side definitions for the claims refuted below -/

/-- The angular-velocity predicate as the spec words it: smoothing
(window 9) applied to the epoch's `angVel` restricted to frames 2..end,
i.e. with the first frame dropped positionally for every epoch. -/
def angVelPredSpec (g : List AnaRow) : Bool :=
  vleB (nanmax ((smooth_series_ML ((g.drop 1).map (·.angVel)) SM_WINDOW_FOR_FILTER).map vabs))
    MAX_ANG_VEL

/-! ### Lemmas about the grouping and filter combinators -/

theorem groupOf_sublist (k : α → ℚ) (df : List α) (e : ℚ) :
    (groupOf k df e).Sublist df :=
  List.filter_sublist df

theorem mem_groupOf {k : α → ℚ} {df : List α} {e : ℚ} {r : α} :
    r ∈ groupOf k df e ↔ r ∈ df ∧ k r = e := by
  simp [groupOf]

theorem groupOf_key_eq (k : α → ℚ) (df : List α) (r : α) (e : ℚ) (h : k r = e) :
    groupOf k df (k r) = groupOf k df e := by rw [h]

theorem grp_filter_sublist (k : α → ℚ) (p : List α → Bool) (df : List α) :
    (grp_filter k p df).Sublist df :=
  List.filter_sublist df

/-- A key is present after `grp_filter` iff it was present and its group
passes the predicate. -/
theorem grp_filter_keep_iff (k : α → ℚ) (p : List α → Bool) (df : List α)
    (e : ℚ) (he : e ∈ df.map k) :
    e ∈ (grp_filter k p df).map k ↔ p (groupOf k df e) = true := by
  constructor
  · rintro h
    rcases List.mem_map.1 h with ⟨r, hr, hke⟩
    rcases List.mem_filter.1 hr with ⟨-, hp⟩
    rwa [groupOf_key_eq k df r e hke] at hp
  · intro hp
    rcases List.mem_map.1 he with ⟨r, hr, hke⟩
    exact List.mem_map.2 ⟨r, List.mem_filter.2 ⟨hr, by rw [groupOf_key_eq k df r e hke]; exact hp⟩, hke⟩

/-- Locality of `grp_filter`: its rows of any one group are exactly that
group when the group passes and nothing otherwise. -/
theorem grp_filter_groupOf (k : α → ℚ) (p : List α → Bool) (df : List α) (e : ℚ) :
    groupOf k (grp_filter k p df) e =
      if p (groupOf k df e) then groupOf k df e else [] := by
  unfold grp_filter groupOf
  rw [List.filter_filter]
  by_cases hp : p (List.filter (fun r => decide (k r = e)) df) = true
  · rw [if_pos hp]
    apply List.filter_congr
    intro r _
    by_cases hke : k r = e
    · rw [hke, hp, Bool.and_true]
    · simp [hke]
  · rw [if_neg hp, List.filter_eq_nil_iff]
    intro r _ hcontra
    rw [Bool.and_eq_true, decide_eq_true_eq] at hcontra
    rcases hcontra with ⟨hke, hpr⟩
    rw [hke] at hpr
    exact hp hpr

theorem grp_filterE_some_sublist (k : α → ℚ) (p : List α → Option Bool)
    (df out : List α) (h : grp_filterE k p df = some out) : out.Sublist df := by
  unfold grp_filterE at h
  split at h
  · cases h; exact List.filter_sublist df
  · cases h

/-- A key is present after a successful `grp_filterE` iff it was present
and its group's predicate returned `true`. -/
theorem grp_filterE_keep_iff (k : α → ℚ) (p : List α → Option Bool)
    (df out : List α) (e : ℚ) (h : grp_filterE k p df = some out)
    (he : e ∈ df.map k) :
    e ∈ out.map k ↔ p (groupOf k df e) = some true := by
  unfold grp_filterE at h
  split at h
  case isFalse => cases h
  case isTrue hall =>
    cases h
    constructor
    · rintro hmem
      rcases List.mem_map.1 hmem with ⟨r, hr, hke⟩
      rcases List.mem_filter.1 hr with ⟨hrdf, hp⟩
      have hs : (p (groupOf k df (k r))).isSome := by
        have := List.all_eq_true.1 hall r hrdf
        simp at this
        exact this
      rcases Option.isSome_iff_exists.1 hs with ⟨b, hb⟩
      rw [groupOf_key_eq k df r e hke] at hb hp
      rw [hb] at hp
      simp only [Option.getD_some] at hp
      rw [hb, hp]
    · intro hp
      rcases List.mem_map.1 he with ⟨r, hr, hke⟩
      refine List.mem_map.2 ⟨r, List.mem_filter.2 ⟨hr, ?_⟩, hke⟩
      rw [groupOf_key_eq k df r e hke, hp]
      rfl

/-- If the predicate raises on a group that is present, the whole
`grp_filterE` call raises. -/
theorem grp_filterE_none (k : α → ℚ) (p : List α → Option Bool)
    (df : List α) (e : ℚ) (he : e ∈ df.map k)
    (hp : p (groupOf k df e) = none) : grp_filterE k p df = none := by
  unfold grp_filterE
  rw [if_neg]
  intro hall
  rcases List.mem_map.1 he with ⟨r, hr, hke⟩
  have := List.all_eq_true.1 hall r hr
  rw [groupOf_key_eq k df r e hke, hp] at this
  simp at this

theorem del_bufAux_sublist (k : α → ℚ) (seen l : List α) :
    (del_bufAux k seen l).Sublist l := by
  induction l generalizing seen with
  | nil => simp [del_bufAux]
  | cons r rest ih =>
    unfold del_bufAux
    split
    · exact (ih (seen ++ [r])).cons₂ r
    · exact (ih (seen ++ [r])).cons r

theorem del_buf_sublist (k : α → ℚ) (df : List α) : (del_buf k df).Sublist df :=
  del_bufAux_sublist k [] df

/-! ### The trim step: `del_buf` slices the interior of every epoch -/

theorem cntKey_eq (k : α → ℚ) (e : ℚ) (l : List α) :
    cntKey k e l = (l.filter (fun r => decide (k r = e))).length := rfl

theorem cntKey_append_singleton (k : α → ℚ) (e : ℚ) (seen : List α) (r : α) :
    cntKey k e (seen ++ [r]) =
      cntKey k e seen + (if k r = e then 1 else 0) := by
  simp only [cntKey_eq, List.filter_append, List.length_append]
  by_cases h : k r = e <;> simp [h]

theorem cntKey_cons (k : α → ℚ) (e : ℚ) (r : α) (rest : List α) :
    cntKey k e (r :: rest) =
      cntKey k e rest + (if k r = e then 1 else 0) := by
  simp only [cntKey_eq]
  by_cases h : k r = e <;> simp [h, List.filter_cons]

/-- What `del_bufAux` keeps of one group: the group's rows of `l`, with
the first `EPOCH_BUF - (already seen)` and the last `EPOCH_BUF` removed. -/
theorem del_bufAux_filter (k : α → ℚ) (e : ℚ) (l : List α) : ∀ seen : List α,
    (del_bufAux k seen l).filter (fun r => decide (k r = e)) =
      ((l.filter (fun r => decide (k r = e))).drop
          (EPOCH_BUF - min (cntKey k e seen) EPOCH_BUF)).take
        (cntKey k e l - (EPOCH_BUF - min (cntKey k e seen) EPOCH_BUF) - EPOCH_BUF) := by
  induction l with
  | nil => intro seen; simp [del_bufAux, cntKey_eq]
  | cons r rest ih =>
    intro seen
    simp only [del_bufAux]
    by_cases hke : k r = e
    · rw [hke]
      have hseen : cntKey k e (seen ++ [r]) = cntKey k e seen + 1 := by
        rw [cntKey_append_singleton, if_pos hke]
      have hcnt : cntKey k e (r :: rest) = cntKey k e rest + 1 := by
        rw [cntKey_cons, if_pos hke]
      have hfil : (r :: rest).filter (fun r => decide (k r = e)) =
          r :: rest.filter (fun r => decide (k r = e)) :=
        List.filter_cons_of_pos (by simp [hke])
      by_cases hcond : EPOCH_BUF ≤ cntKey k e seen ∧ EPOCH_BUF ≤ cntKey k e rest
      · rw [if_pos hcond]
        rw [List.filter_cons_of_pos (by simp [hke]), ih (seen ++ [r]), hseen, hfil, hcnt]
        have h1 : EPOCH_BUF - min (cntKey k e seen + 1) EPOCH_BUF = 0 := by
          simp only [EPOCH_BUF] at hcond ⊢; omega
        have h2 : EPOCH_BUF - min (cntKey k e seen) EPOCH_BUF = 0 := by
          simp only [EPOCH_BUF] at hcond ⊢; omega
        have h3 : cntKey k e rest + 1 - 0 - EPOCH_BUF =
            (cntKey k e rest - 0 - EPOCH_BUF) + 1 := by
          simp only [EPOCH_BUF] at hcond ⊢; omega
        rw [h1, h2, h3, List.drop_zero, List.drop_zero, List.take_succ_cons]
      · rw [if_neg hcond]
        rw [ih (seen ++ [r]), hseen, hfil, hcnt]
        rcases Nat.lt_or_ge (cntKey k e seen) EPOCH_BUF with hs | hs
        · have h1 : EPOCH_BUF - min (cntKey k e seen) EPOCH_BUF =
              (EPOCH_BUF - min (cntKey k e seen + 1) EPOCH_BUF) + 1 := by
            simp only [EPOCH_BUF] at hs ⊢; omega
          have h2 : cntKey k e rest + 1 -
              ((EPOCH_BUF - min (cntKey k e seen + 1) EPOCH_BUF) + 1) - EPOCH_BUF =
              cntKey k e rest - (EPOCH_BUF - min (cntKey k e seen + 1) EPOCH_BUF)
                - EPOCH_BUF := by
            simp only [EPOCH_BUF]; omega
          rw [h1, h2, List.drop_succ_cons]
        · have hl : cntKey k e rest < EPOCH_BUF := by
            rcases Nat.lt_or_ge (cntKey k e rest) EPOCH_BUF with h | h
            · exact h
            · exact absurd ⟨hs, h⟩ hcond
          have h1 : EPOCH_BUF - min (cntKey k e seen + 1) EPOCH_BUF = 0 := by
            simp only [EPOCH_BUF] at hs ⊢; omega
          have h2 : EPOCH_BUF - min (cntKey k e seen) EPOCH_BUF = 0 := by
            simp only [EPOCH_BUF] at hs ⊢; omega
          have h3 : cntKey k e rest - 0 - EPOCH_BUF = 0 := by
            simp only [EPOCH_BUF] at hl ⊢; omega
          have h4 : cntKey k e rest + 1 - 0 - EPOCH_BUF = 0 := by
            simp only [EPOCH_BUF] at hl ⊢; omega
          rw [h1, h2, h3, h4, List.take_zero, List.take_zero]
    · have hseen : cntKey k e (seen ++ [r]) = cntKey k e seen := by
        rw [cntKey_append_singleton, if_neg hke]; ring
      have hcnt : cntKey k e (r :: rest) = cntKey k e rest := by
        rw [cntKey_cons, if_neg hke]; ring
      have hfil : (r :: rest).filter (fun r => decide (k r = e)) =
          rest.filter (fun r => decide (k r = e)) :=
        List.filter_cons_of_neg (by simp [hke])
      by_cases hcond : EPOCH_BUF ≤ cntKey k (k r) seen ∧ EPOCH_BUF ≤ cntKey k (k r) rest
      · rw [if_pos hcond, List.filter_cons_of_neg (by simp [hke]), ih (seen ++ [r]),
          hseen, hfil, hcnt]
      · rw [if_neg hcond, ih (seen ++ [r]), hseen, hfil, hcnt]

/-- `del_buf` restricted to one epoch drops that epoch's first and last
`EPOCH_BUF` rows. -/
theorem del_buf_trim (k : α → ℚ) (df : List α) (e : ℚ) :
    groupOf k (del_buf k df) e =
      ((groupOf k df e).drop EPOCH_BUF).take
        ((groupOf k df e).length - 2 * EPOCH_BUF) := by
  have h := del_bufAux_filter k e df []
  have h0 : cntKey k e ([] : List α) = 0 := rfl
  rw [h0] at h
  have h1 : EPOCH_BUF - min 0 EPOCH_BUF = EPOCH_BUF := by simp
  rw [h1] at h
  have h2 : cntKey k e df - EPOCH_BUF - EPOCH_BUF =
      (groupOf k df e).length - 2 * EPOCH_BUF := by
    simp only [cntKey_eq, EPOCH_BUF, groupOf]; omega
  rw [h2] at h
  exact h

/-! ### Lemmas about the smoothing function -/

theorem vsum_map_some : ∀ l : List ℚ, vsum (l.map some) = some l.sum
  | [] => rfl
  | q :: rest => by
    have h := vsum_map_some rest
    simp only [List.map_cons, vsum, List.foldr_cons, List.sum_cons] at h ⊢
    rw [h]
    rfl

theorem getElem?_zipWith {γ δ ε : Type} (f : γ → δ → ε) :
    ∀ (as : List γ) (bs : List δ) (i : ℕ),
      (List.zipWith f as bs)[i]? = (as[i]?).bind (fun a => (bs[i]?).map (f a))
  | [], bs, i => by simp
  | _ :: _, [], i => by simp
  | a :: as, b :: bs, 0 => by
    simp [List.zipWith_cons_cons]
  | a :: as, b :: bs, i + 1 => by
    simp only [List.zipWith_cons_cons, List.getElem?_cons_succ]
    exact getElem?_zipWith f as bs i

theorem cumsum_length (l : List V) : (cumsum l).length = l.length := by
  simp [cumsum]

theorem cumsum_getElem? (l : List V) (i : ℕ) (h : i < l.length) :
    (cumsum l)[i]? = some (vsum (l.take (i + 1))) := by
  simp [cumsum, List.getElem?_map, List.getElem?_range h]

theorem everyOther_length : ∀ l : List β, (everyOther l).length = (l.length + 1) / 2
  | [] => by simp [everyOther]
  | [_] => by simp [everyOther]
  | _ :: _ :: rest => by
    simp only [everyOther, List.length_cons, everyOther_length rest]
    omega

theorem everyOther_getElem? : ∀ (l : List β) (j : ℕ), (everyOther l)[j]? = l[2 * j]?
  | [], j => by simp [everyOther]
  | [x], 0 => by simp [everyOther]
  | [x], j + 1 => by
    simp only [everyOther]
    rw [List.getElem?_cons_succ, List.getElem?_eq_none (by simp),
      List.getElem?_eq_none (by simp; omega)]
  | x :: y :: rest, 0 => by simp [everyOther]
  | x :: y :: rest, j + 1 => by
    simp only [everyOther]
    rw [List.getElem?_cons_succ]
    have h2 : 2 * (j + 1) = 2 * j + 1 + 1 := by ring
    rw [h2, List.getElem?_cons_succ, List.getElem?_cons_succ]
    exact everyOther_getElem? rest j

theorem rList_length (m : ℕ) : (rList (2 * m + 1)).length = m := by
  unfold rList arange2
  rw [List.length_map, List.length_map, List.length_range]
  omega

theorem rList_getElem? (m j : ℕ) (h : j < m) :
    (rList (2 * m + 1))[j]? = some (some ((1 + 2 * j : ℕ) : ℚ)) := by
  unfold rList arange2
  rw [List.getElem?_map, List.getElem?_map, List.getElem?_range (by omega : j < (2 * m + 1 - 1 - 1 + 1) / 2)]
  rfl

theorem convolveValidOnes_length (a : List V) (W : ℕ) (h : W ≤ a.length) :
    (convolveValidOnes a W).length = a.length - W + 1 := by
  simp [convolveValidOnes, if_pos h]

theorem convolveValidOnes_getElem? (a : List V) (W : ℕ) (hW : W ≤ a.length)
    (j : ℕ) (hj : j < a.length - W + 1) :
    (convolveValidOnes a W)[j]? = some (vsum ((a.drop j).take W)) := by
  simp only [convolveValidOnes, if_pos hW, List.getElem?_map]
  rw [List.getElem?_range hj]
  rfl

theorem smooth_start_length (a : List V) (m : ℕ) (h : 2 * m + 1 ≤ a.length) :
    (List.zipWith vdiv (everyOther (cumsum (a.take (2 * m + 1 - 1)))) (rList (2 * m + 1))).length
      = m := by
  rw [List.length_zipWith, everyOther_length, cumsum_length, List.length_take,
    rList_length]
  have : min (2 * m + 1 - 1) a.length = 2 * m := by omega
  rw [this]
  omega

theorem smooth_stop_length (a : List V) (m : ℕ) (h : 2 * m + 1 ≤ a.length) :
    (List.zipWith vdiv (everyOther (cumsum (a.reverse.take (2 * m + 1 - 1)))) (rList (2 * m + 1))).length
      = m := by
  rw [List.length_zipWith, everyOther_length, cumsum_length, List.length_take,
    rList_length, List.length_reverse]
  have : min (2 * m + 1 - 1) a.length = 2 * m := by omega
  rw [this]
  omega

theorem smooth_series_ML_length (a : List V) (m : ℕ) (h : 2 * m + 1 ≤ a.length) :
    (smooth_series_ML a (2 * m + 1)).length = a.length := by
  unfold smooth_series_ML
  rw [List.length_append, List.length_append, List.length_reverse,
    smooth_start_length a m h, smooth_stop_length a m h, List.length_map,
    convolveValidOnes_length a _ h]
  omega

theorem smooth_eq (a : List V) (W : ℕ) :
    smooth_series_ML a W =
      List.zipWith vdiv (everyOther (cumsum (a.take (W - 1)))) (rList W)
        ++ (convolveValidOnes a W).map (fun s => vdiv s (some (W : ℚ)))
        ++ (List.zipWith vdiv (everyOther (cumsum (a.reverse.take (W - 1)))) (rList W)).reverse :=
  rfl

/-- The start (or stop) block of the smoothing at a valid position is the
shrinking-window average of the first `2*k+1` values of the list it is fed. -/
theorem smooth_edge_getElem? (b : List ℚ) (m : ℕ) (j : ℕ) (hj : j < m)
    (hb : 2 * m ≤ b.length) :
    (List.zipWith vdiv (everyOther (cumsum ((b.map some).take (2 * m + 1 - 1)))) (rList (2 * m + 1)))[j]?
      = some (some ((b.take (2 * j + 1)).sum / ((2 * j + 1 : ℕ) : ℚ))) := by
  have h1 : 2 * m + 1 - 1 = 2 * m := by omega
  rw [getElem?_zipWith, h1, everyOther_getElem?]
  have hlen : 2 * j < ((b.map some).take (2 * m)).length := by
    rw [List.length_take, List.length_map]
    omega
  rw [cumsum_getElem? _ _ hlen, rList_getElem? m j hj]
  have h2 : ((b.map some).take (2 * m)).take (2 * j + 1) = (b.take (2 * j + 1)).map some := by
    rw [List.take_take, List.map_take]
    congr 1
    omega
  rw [h2, vsum_map_some]
  have h3 : (1 + 2 * j : ℕ) = (2 * j + 1 : ℕ) := by omega
  rw [h3]
  rfl

/-- **C1** (confirmed).  For every numeric sequence `a` and every odd
window `W` with `W ≤ len a`, `smooth_series_ML` returns a same-length
sequence whose interior positions hold the plain `W`-point moving average
(window sum divided by `W`), whose `k`-th position from the start
(`1 ≤ k ≤ (W-1)/2`) holds the mean of the first `2k-1` input values, and
whose `k`-th position from the end holds the mean of the last `2k-1`
input values. -/
theorem claim_C1_smooth_boundary (a : List ℚ) (W : ℕ) (hodd : Odd W)
    (hlen : W ≤ a.length) :
    (smooth_series_ML (a.map some) W).length = a.length
    ∧ (∀ i : ℕ, (W - 1) / 2 ≤ i → i + (W - 1) / 2 < a.length →
        (smooth_series_ML (a.map some) W)[i]? =
          some (some (((a.drop (i - (W - 1) / 2)).take W).sum / (W : ℚ))))
    ∧ (∀ k : ℕ, 1 ≤ k → k ≤ (W - 1) / 2 →
        (smooth_series_ML (a.map some) W)[k - 1]? =
          some (some ((a.take (2 * k - 1)).sum / ((2 * k - 1 : ℕ) : ℚ))))
    ∧ (∀ k : ℕ, 1 ≤ k → k ≤ (W - 1) / 2 →
        (smooth_series_ML (a.map some) W)[a.length - k]? =
          some (some ((a.reverse.take (2 * k - 1)).sum / ((2 * k - 1 : ℕ) : ℚ)))) := by
  obtain ⟨m0, hm0⟩ := hodd
  have hWm : W = 2 * m0 + 1 := by omega
  subst hWm
  have hm2 : (2 * m0 + 1 - 1) / 2 = m0 := by omega
  have hf2 : 2 * m0 + 1 - 1 = 2 * m0 := by omega
  have hlenmap : (a.map some).length = a.length := List.length_map a some
  have hlen' : 2 * m0 + 1 ≤ (a.map some).length := by omega
  have hstart := smooth_start_length (a.map some) m0 hlen'
  have hstop := smooth_stop_length (a.map some) m0 hlen'
  have houtlen :
      ((convolveValidOnes (a.map some) (2 * m0 + 1)).map
        (fun s => vdiv s (some ((2 * m0 + 1 : ℕ) : ℚ)))).length
        = a.length - (2 * m0 + 1) + 1 := by
    rw [List.length_map, convolveValidOnes_length _ _ hlen', hlenmap]
  refine ⟨?_, ?_, ?_, ?_⟩
  · rw [smooth_series_ML_length (a.map some) m0 hlen', hlenmap]
  · -- interior positions
    intro i hi1 hi2
    rw [hm2] at hi1 hi2
    rw [smooth_eq, List.getElem?_append, if_pos (by
      rw [List.length_append, hstart, houtlen]; omega)]
    rw [List.getElem?_append, if_neg (by rw [hstart]; omega)]
    rw [hstart, List.getElem?_map,
      convolveValidOnes_getElem? _ _ hlen' (i - m0) (by rw [hlenmap]; omega)]
    have h4 : ((a.map some).drop (i - m0)).take (2 * m0 + 1) =
        ((a.drop (i - m0)).take (2 * m0 + 1)).map some := by
      rw [List.map_take, List.map_drop]
    rw [h4, vsum_map_some, hm2]
    rfl
  · -- start positions
    intro k hk1 hk2
    rw [hm2] at hk2
    rw [smooth_eq, List.getElem?_append, if_pos (by
      rw [List.length_append, hstart, houtlen]; omega)]
    rw [List.getElem?_append, if_pos (by rw [hstart]; omega)]
    have h := smooth_edge_getElem? a m0 (k - 1) (by omega) (by omega)
    rw [h]
    have h5 : 2 * (k - 1) + 1 = 2 * k - 1 := by omega
    rw [h5]
  · -- stop positions
    intro k hk1 hk2
    rw [hm2] at hk2
    rw [smooth_eq, List.getElem?_append, if_neg (by
      rw [List.length_append, hstart, houtlen]; omega)]
    have h6 : a.length - k -
        (List.zipWith vdiv (everyOther (cumsum ((a.map some).take (2 * m0 + 1 - 1)))) (rList (2 * m0 + 1))
          ++ (convolveValidOnes (a.map some) (2 * m0 + 1)).map
              (fun s => vdiv s (some ((2 * m0 + 1 : ℕ) : ℚ)))).length = m0 - k := by
      rw [List.length_append, hstart, houtlen]
      omega
    rw [h6, List.getElem?_reverse (by rw [hstop]; omega), hstop]
    have h7 : m0 - 1 - (m0 - k) = k - 1 := by omega
    rw [h7]
    have h8 : (a.map some).reverse = a.reverse.map some := (List.map_reverse some a).symm
    rw [h8]
    have h := smooth_edge_getElem? a.reverse m0 (k - 1) (by omega) (by
      rw [List.length_reverse]; omega)
    rw [h]
    have h5 : 2 * (k - 1) + 1 = 2 * k - 1 := by omega
    rw [h5]

/-- **C1 witness**: the boundary-semantics theorem applied to a concrete
five-element sequence with window 5. -/
theorem claim_C1_smooth_boundary_witness :
    Odd 5 ∧ 5 ≤ ([0, 1, 2, 3, 4] : List ℚ).length
    ∧ (smooth_series_ML (([0, 1, 2, 3, 4] : List ℚ).map some) 5).length =
        ([0, 1, 2, 3, 4] : List ℚ).length := by
  have hodd : Odd 5 := Nat.odd_iff.2 rfl
  exact ⟨hodd, by decide,
    (claim_C1_smooth_boundary [0, 1, 2, 3, 4] 5 hodd (by decide)).1⟩

/-! ### Behavior of the smoothing on inputs shorter than the window -/

theorem convolveValidOnes_length_short (a : List V) (W : ℕ) (h : a.length < W) :
    (convolveValidOnes a W).length = W - a.length + 1 := by
  simp [convolveValidOnes, if_neg (not_le.2 h)]

theorem broadcastDiv_some_length (x y z : List V) (h : broadcastDiv x y = some z) :
    z.length = x.length ∨ z.length = y.length := by
  unfold broadcastDiv at h
  split at h
  · cases h; left; exact (List.length_zipWith _ _ _).trans (by omega)
  · split at h
    · cases h; right; exact List.length_map _ _
    · split at h
      · cases h; left; exact List.length_map _ _
      · cases h

/-- On any nonempty input shorter than the (odd) window, the assembled
smoothing data is strictly longer than the input, so the final
`pd.Series(data, index)` constructor (or an earlier broadcast) raises. -/
theorem smooth_series_ML_run_short (a : List V) (W : ℕ) (hodd : Odd W)
    (hshort : a.length < W) : smooth_series_ML_run a W = none := by
  obtain ⟨m0, hm0⟩ := hodd
  have hWm : W = 2 * m0 + 1 := by omega
  subst hWm
  unfold smooth_series_ML_run
  by_cases hn0 : a.length = 0
  · rw [if_pos hn0]
  · rw [if_neg hn0]
    have hn1 : 1 ≤ a.length := by omega
    have hm1 : 1 ≤ m0 := by omega
    have hx1 : (everyOther (cumsum (a.take (2 * m0 + 1 - 1)))).length = (a.length + 1) / 2 := by
      rw [everyOther_length, cumsum_length, List.length_take]
      omega
    have hx2 : (everyOther (cumsum (a.reverse.take (2 * m0 + 1 - 1)))).length
        = (a.length + 1) / 2 := by
      rw [everyOther_length, cumsum_length, List.length_take, List.length_reverse]
      omega
    cases hb1 : broadcastDiv (everyOther (cumsum (a.take (2 * m0 + 1 - 1)))) (rList (2 * m0 + 1)) with
    | none => rfl
    | some start =>
      cases hb2 : broadcastDiv (everyOther (cumsum (a.reverse.take (2 * m0 + 1 - 1)))) (rList (2 * m0 + 1)) with
      | none => rfl
      | some stop0 =>
        have hs1 := broadcastDiv_some_length _ _ _ hb1
        have hs2 := broadcastDiv_some_length _ _ _ hb2
        rw [hx1, rList_length] at hs1
        rw [hx2, rList_length] at hs2
        have hlen : (start ++ (convolveValidOnes a (2 * m0 + 1)).map
            (fun s => vdiv s (some ((2 * m0 + 1 : ℕ) : ℚ))) ++ stop0.reverse).length
              = a.length ↔ False := by
          rw [List.length_append, List.length_append, List.length_reverse,
            List.length_map, convolveValidOnes_length_short a _ hshort]
          constructor
          · intro hcon; omega
          · intro hcon; exact hcon.elim
        exact if_neg (fun hcon => (hlen.1 hcon).elim)

/-- **C4 counterexample**: called on a single-element sequence with
window 9, the smoothing raises (`none`), and in particular does not
return the all-undefined length-1 series the claim describes. -/
theorem claim_C4_counterexample :
    smooth_series_ML_run [some 1] 9 = none ∧
      smooth_series_ML_run [some 1] 9 ≠ some [none] := by
  constructor
  · decide
  · decide

/-- **C4 amended**: a smoothing call on a sequence shorter than its odd
window raises an exception (modelled as `none`) instead of returning; the
angular-velocity stage of the plausibility filter therefore aborts
(returns `none`) whenever some epoch's sliced sequence makes the
smoothing raise — no comparison against the bound ever happens for such
an epoch. -/
theorem claim_C4_amended :
    (∀ (a : List V) (W : ℕ), Odd W → a.length < W →
      smooth_series_ML_run a W = none)
    ∧ (∀ (df : List AnaRow) (e : ℚ), e ∈ df.map AnaRow.epochNum →
        angVelFilterPred (groupOf AnaRow.epochNum df e) = none →
        angvel_stage df = none) := by
  constructor
  · exact smooth_series_ML_run_short
  · intro df e he hp
    exact grp_filterE_none AnaRow.epochNum angVelFilterPred df e he hp

/-- A two-frame epoch whose sliced `angVel` sequence is shorter than the
filter's smoothing window. -/
def dfC4 : List AnaRow :=
  [⟨5, 3, none, 0, 0, 0, 0, 0, none, none, some 0, none, none⟩,
   ⟨6, 3, some 1, 0, 0, 0, 0, 0, none, none, some 0, none, none⟩]

/-- **C4 witness**: the amended theorem applied to a concrete short
sequence and to a concrete table with a too-short epoch. -/
theorem claim_C4_amended_witness :
    ([some 0, some 1] : List V).length < 9
    ∧ smooth_series_ML_run ([some 0, some 1] : List V) 9 = none
    ∧ angVelFilterPred (groupOf AnaRow.epochNum dfC4 3) = none
    ∧ angvel_stage dfC4 = none := by
  have hpred : angVelFilterPred (groupOf AnaRow.epochNum dfC4 3) = none := by
    with_unfolding_all decide
  exact ⟨by decide,
    claim_C4_amended.1 [some 0, some 1] 9 (Nat.odd_iff.2 rfl) (by decide),
    hpred,
    claim_C4_amended.2 dfC4 3 (by with_unfolding_all decide) hpred⟩

/-! ### Lemmas about the groupwise difference -/

/-- Each output of the groupwise difference depends only on the row itself
and the last earlier row of the same group. -/
theorem gdiffPairsAux_getElem? :
    ∀ (ps seen : List (ℚ × V)) (i : ℕ),
      (gdiffPairsAux seen ps)[i]? =
        (ps[i]?).map (fun p =>
          match ((seen ++ ps.take i).filter (fun q => decide (q.1 = p.1))).getLast? with
          | some q => vsub p.2 q.2
          | none => none)
  | [], seen, i => by simp [gdiffPairsAux]
  | p :: rest, seen, 0 => by
    simp [gdiffPairsAux]
  | p :: rest, seen, i + 1 => by
    simp only [gdiffPairsAux, List.getElem?_cons_succ]
    rw [gdiffPairsAux_getElem? rest (seen ++ [p]) i]
    simp only [List.take_succ_cons, List.append_assoc, List.singleton_append]

theorem gdiffPairs_getElem? (ps : List (ℚ × V)) (i : ℕ) :
    (gdiffPairs ps)[i]? =
      (ps[i]?).map (fun p =>
        match ((ps.take i).filter (fun q => decide (q.1 = p.1))).getLast? with
        | some q => vsub p.2 q.2
        | none => none) := by
  have h := gdiffPairsAux_getElem? ps [] i
  simpa [gdiffPairs] using h

/-- Pairing the `(epochNum, angVel)` columns commutes with restricting to
one epoch. -/
theorem pairs_filter_eq (t : List AnaRow) (e : ℚ) :
    (t.map (fun r => (r.epochNum, r.angVel))).filter (fun q => decide (q.1 = e)) =
      (t.filter (fun s => decide (s.epochNum = e))).map (fun r => (r.epochNum, r.angVel)) := by
  rw [List.filter_map]
  rfl

/-! ### The angular-acceleration column (C8) -/

/-- **C8** (confirmed).  `angAccel` is the groupwise first difference of
the raw `angVel` column divided by `deltaT`: it is unchanged under any
rewriting of the `angVelSmoothed` column (never computed from it), it is
undefined (`none`) at each epoch's first frame, and at any frame with an
earlier same-epoch frame it equals the difference of the raw `angVel`
values divided by `deltaT`. -/
theorem claim_C8_angAccel (df : List AnaRow) :
    (∀ g : AnaRow → V,
      angAccel_col (df.map (fun r => {r with angVelSmoothed := g r})) = angAccel_col df)
    ∧ (∀ (i : ℕ) (r : AnaRow), df[i]? = some r →
        (df.take i).filter (fun s => decide (s.epochNum = r.epochNum)) = [] →
        (angAccel_col df)[i]? = some none)
    ∧ (∀ (i : ℕ) (r rp : AnaRow), df[i]? = some r →
        ((df.take i).filter (fun s => decide (s.epochNum = r.epochNum))).getLast? = some rp →
        (angAccel_col df)[i]? = some (vdiv (vsub r.angVel rp.angVel) r.deltaT)) := by
  have hpair : ∀ (i : ℕ) (r : AnaRow), df[i]? = some r →
      (df.map (fun r => (r.epochNum, r.angVel)))[i]? = some (r.epochNum, r.angVel) := by
    intro i r hir
    rw [List.getElem?_map, hir]; rfl
  have hdT : ∀ (i : ℕ) (r : AnaRow), df[i]? = some r →
      (df.map AnaRow.deltaT)[i]? = some r.deltaT := by
    intro i r hir
    rw [List.getElem?_map, hir]; rfl
  have ht : ∀ i : ℕ, (df.map (fun r => (r.epochNum, r.angVel))).take i =
      (df.take i).map (fun r => (r.epochNum, r.angVel)) :=
    fun i => (List.map_take _ df i).symm
  refine ⟨?_, ?_, ?_⟩
  · intro g
    unfold angAccel_col
    rw [List.map_map, List.map_map]
    rfl
  · intro i r hir hfirst
    unfold angAccel_col
    rw [getElem?_zipWith, gdiffPairs_getElem?, hpair i r hir, hdT i r hir]
    simp only [Option.map_some', Option.some_bind]
    rw [ht i, pairs_filter_eq (df.take i) r.epochNum, hfirst]
    rfl
  · intro i r rp hir hlast
    unfold angAccel_col
    rw [getElem?_zipWith, gdiffPairs_getElem?, hpair i r hir, hdT i r hir]
    simp only [Option.map_some', Option.some_bind]
    rw [ht i, pairs_filter_eq (df.take i) r.epochNum, List.getLast?_map, hlast]
    rfl

/-- A concrete two-row, one-epoch analyzed table. -/
def dfC8 : List AnaRow :=
  [⟨0, 1, none, 0, 0, 0, 0, 0, none, none, some 3, none, none⟩,
   ⟨1, 1, some (1/2), 0, 0, 0, 0, 0, none, none, some 5, none, none⟩]

/-- **C8 witness**: the theorem applied to the concrete table `dfC8` —
`angAccel` is `none` at the epoch's first frame and equals the `angVel`
difference over `deltaT` at the second. -/
theorem claim_C8_angAccel_witness :
    (angAccel_col dfC8)[0]? = some none
    ∧ (angAccel_col dfC8)[1]? = some (some 4) := by
  constructor
  · exact (claim_C8_angAccel dfC8).2.1 0
      ⟨0, 1, none, 0, 0, 0, 0, 0, none, none, some 3, none, none⟩
      (by with_unfolding_all decide) (by with_unfolding_all decide)
  · have h := (claim_C8_angAccel dfC8).2.2 1
      ⟨1, 1, some (1/2), 0, 0, 0, 0, 0, none, none, some 5, none, none⟩
      ⟨0, 1, none, 0, 0, 0, 0, 0, none, none, some 3, none, none⟩
      (by with_unfolding_all decide) (by with_unfolding_all decide)
    rw [h]
    with_unfolding_all decide

/-! ### First-occurrence order of the epoch grouper (C9) -/

theorem firstOccKeys_mem : ∀ (l : List ℚ) (e : ℚ), e ∈ firstOccKeys l ↔ e ∈ l
  | [], e => by simp [firstOccKeys]
  | k :: rest, e => by
    have ih := firstOccKeys_mem (rest.filter (fun x => decide (¬ x = k))) e
    simp only [firstOccKeys, List.mem_cons, ih, List.mem_filter, decide_eq_true_eq]
    by_cases hek : e = k
    · simp [hek]
    · simp [hek]
termination_by l _ => l.length
decreasing_by
  simp only [List.length_cons]
  exact Nat.lt_succ_of_le (List.length_filter_le _ _)

theorem firstOccKeys_nodup : ∀ l : List ℚ, (firstOccKeys l).Nodup
  | [] => by simp [firstOccKeys]
  | k :: rest => by
    have ih := firstOccKeys_nodup (rest.filter (fun x => decide (¬ x = k)))
    simp only [firstOccKeys, List.nodup_cons]
    refine ⟨?_, ih⟩
    rw [firstOccKeys_mem]
    simp
termination_by l => l.length
decreasing_by
  simp only [List.length_cons]
  exact Nat.lt_succ_of_le (List.length_filter_le _ _)

/-- Filtering preserves the relative order of first occurrences. -/
theorem indexOf_filter_lt (p : ℚ → Bool) :
    ∀ (l : List ℚ) (a b : ℚ), a ∈ l.filter p → b ∈ l.filter p →
      ((l.filter p).indexOf a < (l.filter p).indexOf b ↔ l.indexOf a < l.indexOf b)
  | [], a, b, ha, hb => by simp at ha
  | h :: t, a, b, ha, hb => by
    by_cases hph : p h
    · rw [List.filter_cons_of_pos hph] at ha hb ⊢
      by_cases hha : h = a
      · subst hha
        rw [List.indexOf_cons_self, List.indexOf_cons_self]
        by_cases hab : h = b
        · subst hab
          rw [List.indexOf_cons_self, List.indexOf_cons_self]
        · rw [List.indexOf_cons_ne _ hab, List.indexOf_cons_ne _ hab]
          omega
      · by_cases hhb : h = b
        · subst hhb
          rw [List.indexOf_cons_self, List.indexOf_cons_self,
            List.indexOf_cons_ne _ hha, List.indexOf_cons_ne _ hha]
          omega
        · have ha' : a ∈ t.filter p := by
            rcases List.mem_cons.1 ha with h1 | h1
            · exact absurd h1.symm hha
            · exact h1
          have hb' : b ∈ t.filter p := by
            rcases List.mem_cons.1 hb with h1 | h1
            · exact absurd h1.symm hhb
            · exact h1
          rw [List.indexOf_cons_ne _ hha, List.indexOf_cons_ne _ hhb,
            List.indexOf_cons_ne _ hha, List.indexOf_cons_ne _ hhb]
          have := indexOf_filter_lt p t a b ha' hb'
          omega
    · rw [List.filter_cons_of_neg hph] at ha hb ⊢
      have hpa : p a := (List.mem_filter.1 ha).2
      have hpb : p b := (List.mem_filter.1 hb).2
      have hha : h ≠ a := fun hcon => hph (hcon ▸ hpa)
      have hhb : h ≠ b := fun hcon => hph (hcon ▸ hpb)
      rw [List.indexOf_cons_ne _ hha, List.indexOf_cons_ne _ hhb]
      have := indexOf_filter_lt p t a b ha hb
      omega

theorem firstOccKeys_pairwise : ∀ l : List ℚ,
    (firstOccKeys l).Pairwise (fun a b => l.indexOf a < l.indexOf b)
  | [] => by simp [firstOccKeys]
  | k :: rest => by
    have ih := firstOccKeys_pairwise (rest.filter (fun x => decide (¬ x = k)))
    simp only [firstOccKeys]
    refine List.Pairwise.cons ?_ ?_
    · intro b hb
      rw [firstOccKeys_mem] at hb
      have hbk : b ≠ k := by
        have := (List.mem_filter.1 hb).2
        simpa using this
      rw [List.indexOf_cons_self, List.indexOf_cons_ne _ (fun hcon => hbk hcon.symm)]
      omega
    · refine ih.imp_of_mem ?_
      intro a b ha hb hlt
      rw [firstOccKeys_mem] at ha hb
      have hak : a ≠ k := by
        have := (List.mem_filter.1 ha).2
        simpa using this
      have hbk : b ≠ k := by
        have := (List.mem_filter.1 hb).2
        simpa using this
      have h := (indexOf_filter_lt (fun x => decide (¬ x = k)) rest a b ha hb).1 hlt
      rw [List.indexOf_cons_ne _ (fun hcon => hak hcon.symm),
        List.indexOf_cons_ne _ (fun hcon => hbk hcon.symm)]
      omega
termination_by l => l.length
decreasing_by
  simp only [List.length_cons]
  exact Nat.lt_succ_of_le (List.length_filter_le _ _)

/-- **C9** (confirmed).  The epoch grouper partitions the table into
groups keyed by distinct epoch values, listed in first-encountered order
(the keys are pairwise ordered by the index of their first occurrence —
no re-sorting by key value); each group is the subsequence of the table's
rows carrying that key (original relative order); and the group-wise
operations of the pipeline are local to one epoch: the group-wise
difference at any row reads only the row and the earlier rows of the same
key, and a group-wise filter's output for one key depends only on that
key's group. -/
theorem claim_C9_grouping (k : α → ℚ) (df : List α) :
    ((grp_by_epoch k df).map Prod.fst).Nodup
    ∧ (∀ e : ℚ, e ∈ (grp_by_epoch k df).map Prod.fst ↔ e ∈ df.map k)
    ∧ ((grp_by_epoch k df).map Prod.fst).Pairwise
        (fun a b => (df.map k).indexOf a < (df.map k).indexOf b)
    ∧ (∀ (e : ℚ) (g : List α), (e, g) ∈ grp_by_epoch k df → g = groupOf k df e)
    ∧ (∀ e : ℚ, (groupOf k df e).Sublist df)
    ∧ (∀ (e : ℚ) (r : α), r ∈ groupOf k df e ↔ r ∈ df ∧ k r = e)
    ∧ (∀ (ps : List (ℚ × V)) (i : ℕ),
        (gdiffPairs ps)[i]? = (ps[i]?).map (fun p =>
          match ((ps.take i).filter (fun q => decide (q.1 = p.1))).getLast? with
          | some q => vsub p.2 q.2
          | none => none))
    ∧ (∀ (p : List α → Bool) (e : ℚ),
        groupOf k (grp_filter k p df) e =
          if p (groupOf k df e) then groupOf k df e else []) := by
  have hkeys : (grp_by_epoch k df).map Prod.fst = firstOccKeys (df.map k) := by
    unfold grp_by_epoch
    rw [List.map_map]
    exact List.map_id _
  refine ⟨?_, ?_, ?_, ?_, ?_, ?_, ?_, ?_⟩
  · rw [hkeys]; exact firstOccKeys_nodup _
  · intro e; rw [hkeys]; exact firstOccKeys_mem _ e
  · rw [hkeys]; exact firstOccKeys_pairwise _
  · intro e g hmem
    unfold grp_by_epoch at hmem
    rcases List.mem_map.1 hmem with ⟨e', _, heq⟩
    have h1 : e' = e := congrArg Prod.fst heq
    have h2 : groupOf k df e' = g := congrArg Prod.snd heq
    rw [← h2, h1]
  · exact groupOf_sublist k df
  · intro e r; exact mem_groupOf
  · exact gdiffPairs_getElem?
  · intro p e; exact grp_filter_groupOf k p df e

/-- **C9 witness**: the grouping theorem applied to a concrete key list
with interleaved epochs. -/
theorem claim_C9_grouping_witness :
    ((3 : ℚ), ([3, 3] : List ℚ)) ∈ grp_by_epoch id ([3, 1, 3, 2, 1] : List ℚ)
    ∧ ([3, 3] : List ℚ) = groupOf id ([3, 1, 3, 2, 1] : List ℚ) 3 := by
  constructor
  · with_unfolding_all decide
  · exact (claim_C9_grouping id [3, 1, 3, 2, 1]).2.2.2.1 3 [3, 3]
      (by with_unfolding_all decide)

/-! ### C5: trim correctness -/

/-- **C5** (confirmed).  For every epoch of the input table, the trim step
keeps exactly the interior frames: it drops the first and last `EPOCH_BUF`
frames by position within the epoch, yields an empty result when the
epoch has at most `2 * EPOCH_BUF` frames, and retains exactly
`L - 2 * EPOCH_BUF` frames when `L > 2 * EPOCH_BUF`. -/
theorem claim_C5_trim (df : List RawRow) (e : ℚ) :
    groupOf RawRow.epochNum (del_buf RawRow.epochNum df) e =
      ((groupOf RawRow.epochNum df e).drop EPOCH_BUF).take
        ((groupOf RawRow.epochNum df e).length - 2 * EPOCH_BUF)
    ∧ ((groupOf RawRow.epochNum df e).length ≤ 2 * EPOCH_BUF →
        groupOf RawRow.epochNum (del_buf RawRow.epochNum df) e = [])
    ∧ (2 * EPOCH_BUF < (groupOf RawRow.epochNum df e).length →
        (groupOf RawRow.epochNum (del_buf RawRow.epochNum df) e).length =
          (groupOf RawRow.epochNum df e).length - 2 * EPOCH_BUF) := by
  have h := del_buf_trim RawRow.epochNum df e
  refine ⟨h, ?_, ?_⟩
  · intro hle
    rw [h]
    have h0 : (groupOf RawRow.epochNum df e).length - 2 * EPOCH_BUF = 0 := by omega
    rw [h0, List.take_zero]
  · intro hgt
    rw [h, List.length_take, List.length_drop]
    simp only [EPOCH_BUF] at hgt ⊢
    omega

/-- A concrete raw table: one epoch of six frames. -/
def dfC5 : List RawRow := List.replicate 6 ⟨0, 0, 0, 0, 0, 0, 0, some 0, 0⟩

/-- **C5 witness**: on a six-frame epoch the trim retains `6 - 2 * EPOCH_BUF`
frames. -/
theorem claim_C5_trim_witness :
    2 * EPOCH_BUF < (groupOf RawRow.epochNum dfC5 0).length
    ∧ (groupOf RawRow.epochNum (del_buf RawRow.epochNum dfC5) 0).length =
        (groupOf RawRow.epochNum dfC5 0).length - 2 * EPOCH_BUF :=
  ⟨by with_unfolding_all decide,
    (claim_C5_trim dfC5 0).2.2 (by with_unfolding_all decide)⟩

/-! ### C6: centering invariant -/

/-- **C6** (confirmed).  For every epoch present in the table reaching the
centered-coordinate computation, the first frame of that epoch has
`x, y, headx, heady, centeredAng` all exactly `0`. -/
theorem claim_C6_centering (df : List RawRow) (e : ℚ)
    (he : e ∈ df.map RawRow.epochNum) :
    ((centered_coordinates df).filter (fun c => decide (c.epochNum = e))).head? =
      some ⟨e, 0, 0, 0, 0, 0⟩ := by
  rcases List.mem_map.1 he with ⟨r1, hr1, hr1e⟩
  have hne : df.filter (fun r => decide (r.epochNum = e)) ≠ [] := by
    intro hcon
    have : r1 ∈ df.filter (fun r => decide (r.epochNum = e)) :=
      List.mem_filter.2 ⟨hr1, by simp [hr1e]⟩
    rw [hcon] at this
    exact List.not_mem_nil r1 this
  unfold centered_coordinates
  rw [List.filter_map]
  have hcomp : ((fun c : CRow => decide (c.epochNum = e)) ∘
      (fun r : RawRow =>
        let f := (groupOf RawRow.epochNum df r.epochNum).headD r
        (⟨r.epochNum, r.absx - f.absx, r.absy - f.absy, r.absHeadx - f.absHeadx,
          r.absHeady - f.absHeady, r.ang - f.ang⟩ : CRow))) =
      (fun r : RawRow => decide (r.epochNum = e)) := rfl
  rw [hcomp, List.head?_map, List.head?_eq_head hne]
  set r0 := (df.filter (fun r => decide (r.epochNum = e))).head hne with hr0
  have hr0mem : r0 ∈ df.filter (fun r => decide (r.epochNum = e)) := List.head_mem hne
  have hr0e : r0.epochNum = e := by
    have := (List.mem_filter.1 hr0mem).2
    simpa using this
  have hgrp : groupOf RawRow.epochNum df r0.epochNum =
      df.filter (fun r => decide (r.epochNum = e)) := by
    unfold groupOf
    rw [hr0e]
  have hheadD : (groupOf RawRow.epochNum df r0.epochNum).headD r0 = r0 := by
    rw [hgrp, List.headD_eq_head?, List.head?_eq_head hne]
    rfl
  simp only [Option.map_some']
  rw [hheadD]
  simp [hr0e]

/-- A concrete raw table for the centering witness: one epoch, two frames
with nonzero coordinates. -/
def dfC6 : List RawRow :=
  [⟨7, 0, 10, 20, 30, 40, 50, some 0, 0⟩, ⟨7, 1, 11, 22, 33, 44, 55, some 0, 0⟩]

/-- **C6 witness**: the centering theorem applied to `dfC6`. -/
theorem claim_C6_centering_witness :
    (7 : ℚ) ∈ dfC6.map RawRow.epochNum
    ∧ ((centered_coordinates dfC6).filter (fun c => decide (c.epochNum = 7))).head? =
        some ⟨7, 0, 0, 0, 0, 0⟩ :=
  ⟨by with_unfolding_all decide,
    claim_C6_centering dfC6 7 (by with_unfolding_all decide)⟩

/-! ### C7: direction-consistency filter -/

/-- **C7** (confirmed).  An epoch reaching the direction-consistency
filter is kept iff the product of (mean `headx` minus mean `x`) and the
last frame's `x` is nonnegative. -/
theorem claim_C7_direction (df : List AnaRow) (e : ℚ)
    (he : e ∈ df.map AnaRow.epochNum) :
    e ∈ (grp_filter AnaRow.epochNum dirPred df).map AnaRow.epochNum ↔
      0 ≤ (meanQ ((groupOf AnaRow.epochNum df e).map AnaRow.headx) -
            meanQ ((groupOf AnaRow.epochNum df e).map AnaRow.x)) *
          ((groupOf AnaRow.epochNum df e).getLastD dfltAna).x := by
  rw [grp_filter_keep_iff AnaRow.epochNum dirPred df e he]
  unfold dirPred
  rw [decide_eq_true_eq]

/-- A concrete analyzed table for the direction witness: one epoch whose
head points in the direction it travels. -/
def dfC7 : List AnaRow :=
  [⟨0, 1, none, 0, 0, 1, 0, 0, none, none, none, none, none⟩,
   ⟨1, 1, some 1, 2, 0, 3, 0, 0, none, none, none, none, none⟩]

/-- **C7 witness**: the direction filter keeps the epoch of `dfC7`. -/
theorem claim_C7_direction_witness :
    (1 : ℚ) ∈ dfC7.map AnaRow.epochNum
    ∧ (1 : ℚ) ∈ (grp_filter AnaRow.epochNum dirPred dfC7).map AnaRow.epochNum :=
  ⟨by with_unfolding_all decide,
    (claim_C7_direction dfC7 1 (by with_unfolding_all decide)).2
      (by with_unfolding_all decide)⟩

/-! ### C3: duration and fish-number filter -/

theorem nanmax_replicate (n : ℕ) (q : ℚ) :
    nanmax (List.replicate (n + 1) (some q)) = some q := by
  induction n with
  | zero => rfl
  | succ n ih =>
    show nanmax (some q :: List.replicate (n + 1) (some q)) = some q
    unfold nanmax at ih ⊢
    rw [List.foldr_cons, ih]
    simp

/-- A 100-frame single-epoch table in which every frame has `fishNum = 1`
(exactly one detected subject throughout). -/
def dfC3 : List RawRow := List.replicate 100 ⟨0, 0, 0, 0, 0, 0, 0, some 1, 0⟩

/-- **C3 counterexample**: an epoch of 100 frames with `fishNum = 1` in
every frame — by the claim's reading (exactly one detected subject
throughout, duration satisfied) it should be kept, but the filter deletes
it, because `nanmax fishNum < MAX_FISH` demands the maximum be strictly
below 1. -/
theorem claim_C3_counterexample :
    raw_filter_step2 dfC3 = []
    ∧ dfC3.length = 100
    ∧ dfC3.all (fun r => decide (r.fishNum = some 1)) = true := by
  refine ⟨?_, by with_unfolding_all decide, by with_unfolding_all decide⟩
  have hpred : rawFilterPred dfC3 = false := by
    unfold rawFilterPred
    have h1 : dfC3.map RawRow.fishNum = List.replicate 100 (some 1) := by
      unfold dfC3
      rw [List.map_replicate]
    have h2 : nanmax (List.replicate 100 (some (1 : ℚ))) = some 1 := by
      have := nanmax_replicate 99 (1 : ℚ)
      norm_num at this
      exact this
    rw [h1, h2]
    have h3 : vltB (some (1 : ℚ)) MAX_FISH = false := by
      with_unfolding_all decide
    rw [h3, Bool.and_false]
  unfold raw_filter_step2 grp_filter
  rw [List.filter_eq_nil_iff]
  intro r hr
  have hre : r = ⟨0, 0, 0, 0, 0, 0, 0, some 1, 0⟩ := List.eq_of_mem_replicate hr
  have hgrp : groupOf RawRow.epochNum dfC3 r.epochNum = dfC3 := by
    unfold groupOf
    rw [hre]
    apply List.filter_eq_self.2
    intro a ha
    have hae : a = ⟨0, 0, 0, 0, 0, 0, 0, some 1, 0⟩ := List.eq_of_mem_replicate ha
    rw [hae]
    with_unfolding_all decide
  rw [hgrp, hpred]
  simp

/-- **C3 amended**: an already-trimmed epoch survives the second step of
the structural filter iff its frame count is at least `MIN_DUR` (100
frames) and the maximum of its defined `fishNum` values is strictly less
than `MAX_FISH = 1` — so only epochs whose every defined `fishNum` is
below 1 survive; an epoch with `fishNum = 1` throughout is deleted. -/
theorem claim_C3_amended (df : List RawRow) (e : ℚ)
    (he : e ∈ df.map RawRow.epochNum) :
    e ∈ (raw_filter_step2 df).map RawRow.epochNum ↔
      (MIN_DUR ≤ ((groupOf RawRow.epochNum df e).length : ℚ)
        ∧ vltB (nanmax ((groupOf RawRow.epochNum df e).map RawRow.fishNum)) MAX_FISH = true) := by
  unfold raw_filter_step2
  rw [grp_filter_keep_iff RawRow.epochNum rawFilterPred df e he]
  unfold rawFilterPred
  rw [Bool.and_eq_true, decide_eq_true_eq]

/-- A 100-frame single-epoch table with `fishNum = 0` everywhere. -/
def dfC3b : List RawRow := List.replicate 100 ⟨0, 0, 0, 0, 0, 0, 0, some 0, 0⟩

/-- **C3 witness**: the amended filter keeps a 100-frame epoch whose
`fishNum` maximum is below 1. -/
theorem claim_C3_amended_witness :
    (0 : ℚ) ∈ dfC3b.map RawRow.epochNum
    ∧ (0 : ℚ) ∈ (raw_filter_step2 dfC3b).map RawRow.epochNum := by
  have hm : (0 : ℚ) ∈ dfC3b.map RawRow.epochNum := by with_unfolding_all decide
  refine ⟨hm, (claim_C3_amended dfC3b 0 hm).2 ⟨?_, ?_⟩⟩
  · with_unfolding_all decide
  · with_unfolding_all decide

/-! ### C10: filters only delete whole rows -/

/-- **C10** (confirmed).  Every filter stage returns a subsequence of its
input table: surviving rows keep their original relative order and every
column value unchanged (the rows are the very same records); the
plausibility filter, when it does not raise, does the same. -/
theorem claim_C10_filters_sublist (df : List RawRow) (df2 : List AnaRow) :
    (raw_filter df).Sublist df
    ∧ (dur_y_x_filter df2).Sublist df2
    ∧ (∀ out : List AnaRow, displ_dist_vel_filter df2 = some out → out.Sublist df2) := by
  refine ⟨?_, ?_, ?_⟩
  · exact (grp_filter_sublist _ _ _).trans (del_buf_sublist _ df)
  · exact (grp_filter_sublist _ _ _).trans (grp_filter_sublist _ _ _)
  · intro out hout
    unfold displ_dist_vel_filter at hout
    cases hmid : angvel_stage (grp_filter AnaRow.epochNum displPred df2) with
    | none => rw [hmid] at hout; cases hout
    | some f2 =>
      rw [hmid] at hout
      simp only [Option.map_some'] at hout
      injection hout with hout2
      rw [← hout2]
      exact ((grp_filter_sublist _ _ _).trans
        (grp_filterE_some_sublist _ _ _ _ hmid)).trans (grp_filter_sublist _ _ _)

/-- **C10 witness**: the theorem applied to a concrete table (and to the
empty analyzed table, on which the plausibility filter returns without
raising). -/
theorem claim_C10_filters_sublist_witness :
    (raw_filter dfC5).Sublist dfC5
    ∧ displ_dist_vel_filter ([] : List AnaRow) = some []
    ∧ ([] : List AnaRow).Sublist [] :=
  ⟨(claim_C10_filters_sublist dfC5 []).1, by with_unfolding_all decide,
    (claim_C10_filters_sublist dfC5 []).2.2 [] (by with_unfolding_all decide)⟩

/-! ### C2: the angular-velocity predicate of the plausibility filter -/

/-- An analyzed-table row carrying only a label, an epoch and an `angVel`
value (all other columns inert). -/
def mkA (lb : ℕ) (e : ℚ) (av : V) : AnaRow :=
  ⟨lb, e, none, 0, 0, 0, 0, 0, none, none, av, none, none⟩

/-- A two-epoch analyzed table as produced after `reset_index`: integer
labels run 0..23 across the table.  Epoch 2's `angVel` is undefined at its
first frame (as at every epoch start) and has one extreme value (200) at
its second frame. -/
def dfC2 : List AnaRow :=
  [mkA 0 1 none, mkA 1 1 (some 0), mkA 2 1 (some 0), mkA 3 1 (some 0),
   mkA 4 1 (some 0), mkA 5 1 (some 0), mkA 6 1 (some 0), mkA 7 1 (some 0),
   mkA 8 1 (some 0), mkA 9 1 (some 0), mkA 10 1 (some 0), mkA 11 1 (some 0),
   mkA 12 2 none, mkA 13 2 (some 200), mkA 14 2 (some 0), mkA 15 2 (some 0),
   mkA 16 2 (some 0), mkA 17 2 (some 0), mkA 18 2 (some 0), mkA 19 2 (some 0),
   mkA 20 2 (some 0), mkA 21 2 (some 0), mkA 22 2 (some 0), mkA 23 2 (some 0)]

theorem dfC2_run : angvel_stage dfC2 = some dfC2 := by
  with_unfolding_all decide

/-- **C2 counterexample**: in `dfC2` the angular-velocity stage keeps
epoch 2 (the label-based slice `loc[1:]` removes nothing from it, the
undefined first `angVel` turns the leading smoothed values into ignored
NaNs, and the surviving maximum is `200/9 ≤ 100`), although the claim's
rule — smoothing applied to frames 2..end of the epoch — gives a maximum
of `200 > 100` and demands the epoch be dropped. -/
theorem claim_C2_counterexample :
    angvel_stage dfC2 = some dfC2
    ∧ (2 : ℚ) ∈ dfC2.map AnaRow.epochNum
    ∧ angVelPredSpec (groupOf AnaRow.epochNum dfC2 2) = false := by
  refine ⟨dfC2_run, ?_, ?_⟩
  · with_unfolding_all decide
  · with_unfolding_all decide

/-- **C2 amended**: an epoch reaching the angular-velocity predicate is
kept iff smoothing (window 9) of its `angVel` values at index labels ≥ 1
succeeds and the maximum absolute value of the defined smoothed results is
at most `MAX_ANG_VEL`.  The label slice excludes the first frame only for
an epoch containing the table's label-0 row; every other epoch's full
`angVel` sequence — undefined first value included — is smoothed. -/
theorem claim_C2_amended (df : List AnaRow) (out : List AnaRow) (e : ℚ)
    (hrun : angvel_stage df = some out) (he : e ∈ df.map AnaRow.epochNum) :
    (e ∈ out.map AnaRow.epochNum ↔
      angVelFilterPred (groupOf AnaRow.epochNum df e) = some true)
    ∧ (angVelFilterPred (groupOf AnaRow.epochNum df e) = some true ↔
        ∃ s : List V,
          smooth_series_ML_run
            (((groupOf AnaRow.epochNum df e).filter
                (fun r => decide (1 ≤ r.label))).map AnaRow.angVel)
            SM_WINDOW_FOR_FILTER = some s
          ∧ vleB (nanmax (s.map vabs)) MAX_ANG_VEL = true) := by
  constructor
  · exact grp_filterE_keep_iff AnaRow.epochNum angVelFilterPred df out e hrun he
  · unfold angVelFilterPred
    rw [Option.map_eq_some']

/-- **C2 amended witness**: the amended filter keeps epoch 2 of `dfC2`. -/
theorem claim_C2_amended_witness :
    (2 : ℚ) ∈ dfC2.map AnaRow.epochNum
    ∧ angVelFilterPred (groupOf AnaRow.epochNum dfC2 2) = some true := by
  have hm : (2 : ℚ) ∈ dfC2.map AnaRow.epochNum := by with_unfolding_all decide
  exact ⟨hm, ((claim_C2_amended dfC2 dfC2 2 dfC2_run hm).1).1 hm⟩

end VF
